import Mathlib

/-!
Verification of the meditrain biosignal analytics engine.

This file gives a shallow embedding of the numerical core of
`src/notebooks/eeg_processing_utils.py` and `src/notebooks/ppg_utils.py`
into Lean 4, and proves/refutes the frozen specification claims about it.

Floating point values are modelled as rationals (`ℚ`) where the code only
performs field arithmetic and comparisons, and as reals/complexes where the
code applies Fourier transforms.  Python `None` becomes `Option`, raised
exceptions become `Except`, and NumPy/pandas primitives (`round`, `median`,
`percentile`, `trapezoid`, `sort_values`, `drop_duplicates`, `groupby`)
are embedded with their documented semantics (banker's rounding,
linear-interpolation percentiles, trapezoidal integration, keep-first
deduplication, sorted group keys).
-/

namespace Meditrain

/-- Python `round` / NumPy `.round()`: round half to even (banker's rounding). -/
def roundHalfEven (q : ℚ) : ℤ :=
  let f : ℤ := ⌊q⌋
  let r : ℚ := q - f
  if r < 1/2 then f
  else if 1/2 < r then f + 1
  else if f % 2 = 0 then f else f + 1

/-- NumPy/pandas median of a list of rationals: sort, take the middle element
(odd length) or the mean of the two middle elements (even length). -/
def medianQ (l : List ℚ) : ℚ :=
  let s := l.insertionSort (· ≤ ·)
  let n := s.length
  if n = 0 then 0
  else if n % 2 = 1 then s.getD (n / 2) 0
  else (s.getD (n / 2 - 1) 0 + s.getD (n / 2) 0) / 2

/-- `np.trapezoid y x` on parallel arrays, given as a list of `(x, y)` points:
sum of `(x_{i+1} - x_i) * (y_i + y_{i+1}) / 2`. -/
def trapezoid : List (ℚ × ℚ) → ℚ
  | [] => 0
  | [_] => 0
  | p :: q :: rest => (q.1 - p.1) * (p.2 + q.2) / 2 + trapezoid (q :: rest)

/-! ## Canonical frequency bands (`BANDS` in `eeg_processing_utils.py`) -/

inductive Band where
  | delta | theta | alpha | beta | gamma
  deriving DecidableEq, Repr

/-- Half-open `[min, max)` frequency range of each band, from the module-level
`BANDS` dictionary. -/
def Band.range : Band → ℚ × ℚ
  | .delta => (1/2, 4)
  | .theta => (4, 8)
  | .alpha => (8, 12)
  | .beta => (12, 30)
  | .gamma => (30, 50)

/-- The five canonical bands in the dictionary's iteration order. -/
def bandList : List Band := [.delta, .theta, .alpha, .beta, .gamma]

/-! ## `band_powers` (eeg_processing_utils.py lines 167-179) -/

/-- The `(freq, psd)` points selected by the mask
`(freqs >= min_freq) & (freqs < max_freq)` for one band. -/
def bandPoints (freqs psd : List ℚ) (b : Band) : List (ℚ × ℚ) :=
  (freqs.zip psd).filter fun fp => decide (b.range.1 ≤ fp.1) && decide (fp.1 < b.range.2)

/-- One band's absolute power: `np.trapezoid(psd[mask], freqs[mask])` when the
mask selects anything, else `0.0`. -/
def absolutePower (freqs psd : List ℚ) (b : Band) : ℚ :=
  let pts := bandPoints freqs psd b
  if pts.isEmpty then 0 else trapezoid pts

/-- `total_power`: the running sum of the five bands' absolute powers. -/
def totalPower (freqs psd : List ℚ) : ℚ :=
  (bandList.map (absolutePower freqs psd)).sum

/-- One band's relative power: `absolute / total_power` when `total_power > 0`,
else the initial `0.0` (the division is guarded, so it never divides by zero). -/
def relativePower (freqs psd : List ℚ) (b : Band) : ℚ :=
  if 0 < totalPower freqs psd then absolutePower freqs psd b / totalPower freqs psd else 0

lemma list_sum_map_div {α : Type} (l : List α) (f : α → ℚ) (c : ℚ) :
    (l.map fun a => f a / c).sum = (l.map f).sum / c := by
  induction l with
  | nil => simp
  | cons a t ih => simp [ih, add_div]

/-- C4: for every PSD given as frequency-ascending parallel arrays, each band's
relative power equals `absolute / total` when the total absolute power is
strictly positive (and the five relative powers then sum to 1), while every
relative power is 0 when the total is 0; the division is guarded so no division
by zero occurs. -/
theorem band_powers_relative_spec (freqs psd : List ℚ) :
    (0 < totalPower freqs psd →
      (∀ b, relativePower freqs psd b = absolutePower freqs psd b / totalPower freqs psd) ∧
      (bandList.map (relativePower freqs psd)).sum = 1) ∧
    (totalPower freqs psd = 0 → ∀ b, relativePower freqs psd b = 0) := by
  constructor
  · intro h
    constructor
    · intro b
      simp [relativePower, h]
    · have hrw : (bandList.map (relativePower freqs psd)) =
          (bandList.map fun b => absolutePower freqs psd b / totalPower freqs psd) := by
        apply List.map_congr_left
        intro b _
        simp [relativePower, h]
      rw [hrw, list_sum_map_div]
      rw [← totalPower]
      exact div_self (ne_of_gt h)
  · intro h b
    simp [relativePower, h]

/-- Witness for C4 at concrete inputs: a two-point PSD inside the delta band has
total power 1 and relative delta power `1`, and the empty PSD has total 0 with
all relative powers 0. -/
theorem band_powers_relative_spec_witness :
    ((∀ b, relativePower [1, 2] [1, 1] b =
        absolutePower [1, 2] [1, 1] b / totalPower [1, 2] [1, 1]) ∧
      (bandList.map (relativePower [1, 2] [1, 1])).sum = 1) ∧
    (∀ b, relativePower [] [] b = 0) :=
  ⟨(band_powers_relative_spec [1, 2] [1, 1]).1 (by
      norm_num [totalPower, absolutePower, bandPoints, trapezoid, bandList, Band.range,
        List.filter]),
   (band_powers_relative_spec [] []).2 (by
      norm_num [totalPower, absolutePower, bandPoints, bandList])⟩

/-! ## `compute_psd` averaging-mode resolution
(eeg_processing_utils.py lines 23-29 and 96-119)

`compute_psd` resolves its Welch `average` argument as
`avg = average or PSD_AVERAGE`, where the module default is
`PSD_AVERAGE = "median"`; Python's `or` also replaces an empty string.
The artifact-metrics line-noise estimate (`compute_line_noise_ratio`,
line 252) instead passes `average="mean"` explicitly. -/

/-- Module constant `PSD_AVERAGE` (line 26). -/
def PSD_AVERAGE : String := "median"

/-- The Welch `average=` argument hard-coded by `compute_line_noise_ratio`
(line 252), the unfiltered artifact-metrics estimator. -/
def lineNoiseWelchAverage : String := "mean"

/-- `avg = average or PSD_AVERAGE` in `compute_psd` (line 107). -/
def computePsdAverageMode (average : Option String) : String :=
  match average with
  | none => PSD_AVERAGE
  | some a => if a = "" then PSD_AVERAGE else a

/-- C9 counterexample: calling `compute_psd` without an explicit averaging mode
does **not** select mean averaging — the resolved mode is the module default
`PSD_AVERAGE`, which is `"median"`. -/
theorem compute_psd_default_average_not_mean :
    computePsdAverageMode none = "median" ∧ computePsdAverageMode none ≠ "mean" := by
  constructor
  · rfl
  · intro h
    simp [computePsdAverageMode, PSD_AVERAGE] at h

/-- C9 amended: without an explicit averaging mode `compute_psd` averages
segment periodograms by the module default `PSD_AVERAGE = "median"`; an
explicitly passed non-empty mode is honored unchanged, and the
artifact-metrics line-noise Welch estimate is the path that fixes mean
averaging. -/
theorem compute_psd_default_average_is_median :
    computePsdAverageMode none = PSD_AVERAGE ∧ PSD_AVERAGE = "median" ∧
    lineNoiseWelchAverage = "mean" ∧
    ∀ a : String, a ≠ "" → computePsdAverageMode (some a) = a := by
  refine ⟨rfl, rfl, rfl, fun a ha => ?_⟩
  simp [computePsdAverageMode, ha]

/-- Witness for the amended C9: an explicit `"mean"` request resolves to mean
averaging. -/
theorem compute_psd_default_average_is_median_witness :
    computePsdAverageMode (some "mean") = "mean" :=
  compute_psd_default_average_is_median.2.2.2 "mean" (by decide)

/-! ## `channel_timebase` (eeg_processing_utils.py lines 613-624)

Instants are modelled as rational epoch-seconds.  The per-sample timestamp
array of a channel is modelled post-parse: each entry is `some t` when
`pd.to_datetime(..., errors="coerce")` parses it and `none` when it yields
`NaT` (raw string parsing is an external collaborator per the spec). -/

structure Channel where
  label : Option String
  /-- Fallback name key read by `channel_label` (`channel.get("electrode")`). -/
  electrode : Option String
  samples : List ℚ
  /-- Parsed per-sample timestamps; `none` entries are `NaT`. -/
  timestamps : List (Option ℚ)
  samplingRateHz : Option ℚ

/-- `channel_timebase(channel, capture_start, sampling_rate)`: use the
channel's own timestamp array when its length matches the sample count, it is
non-empty and at least one entry parsed; otherwise synthesize
`capture_start + i / rate` when a capture start, a positive rate and at least
one sample exist; otherwise no timebase. -/
def channel_timebase (ch : Channel) (captureStart : Option ℚ) (samplingRate : Option ℚ) :
    Option (List (Option ℚ)) :=
  if ch.timestamps.length = ch.samples.length ∧ 0 < ch.timestamps.length ∧
      ch.timestamps.any (·.isSome) then
    some ch.timestamps
  else
    match captureStart, samplingRate with
    | some t0, some r =>
      if r ≤ 0 ∨ ch.samples.length = 0 then none
      else some ((List.range ch.samples.length).map fun (i : ℕ) => some (t0 + (i : ℚ) / r))
    | _, _ => none

/-- C6: for every channel without a usable per-sample timestamp array but with
a capture-start instant, a strictly positive sampling rate and at least one
sample, the resolved timebase has one entry per sample and entry `i` equals
`capture_start + i / rate` seconds. -/
theorem channel_timebase_synthesized (ch : Channel) (t0 r : ℚ)
    (hts : ¬(ch.timestamps.length = ch.samples.length ∧ 0 < ch.timestamps.length ∧
      ch.timestamps.any (·.isSome)))
    (hr : 0 < r) (hn : ch.samples ≠ []) :
    channel_timebase ch (some t0) (some r) =
      some ((List.range ch.samples.length).map fun (i : ℕ) => some (t0 + (i : ℚ) / r)) ∧
    ∀ i, i < ch.samples.length →
      ((List.range ch.samples.length).map fun (i : ℕ) => some (t0 + (i : ℚ) / r)).getD i none =
        some (t0 + (i : ℚ) / r) := by
  constructor
  · rw [channel_timebase, if_neg hts]
    rw [if_neg]
    push_neg
    exact ⟨hr, fun h => hn (List.length_eq_zero.mp h)⟩
  · intro i hi
    rw [List.getD_eq_getElem?_getD, List.getElem?_map, List.getElem?_range hi]
    rfl

/-- Witness for C6: `samples=[0,1,2,3]`, no usable timestamp array,
`capture_start = 100`, `rate = 2 Hz` resolves to
`[100, 100.5, 101, 101.5]` — i.e. `T0 + [0, 0.5, 1.0, 1.5]` seconds. -/
theorem channel_timebase_synthesized_witness :
    channel_timebase ⟨some "TP9", none, [0, 1, 2, 3], [], none⟩ (some 100) (some 2) =
      some [some 100, some (201/2), some 101, some (203/2)] := by
  have h := channel_timebase_synthesized ⟨some "TP9", none, [0, 1, 2, 3], [], none⟩ 100 2
    (by simp) (by norm_num) (by simp)
  rw [h.1]
  norm_num [List.range_succ]

/-! ## `compute_artifact_metrics` (eeg_processing_utils.py lines 270-335)

The per-window Welch line-noise estimate (`compute_line_noise_ratio`) is an
independent spectral kernel whose numeric value the claims do not constrain;
it is abstracted as a parameter `lnr` returning `none` for its NaN results. -/

/-- `len(range(0, stop, step))` for Python `range` with `step ≥ 1`. -/
def pythonRangeLen (stop step : ℕ) : ℕ :=
  if stop = 0 then 0 else (stop - 1) / step + 1

/-- The window start indices `range(0, n - w + 1, step)` (requires `w ≤ n`). -/
def windowStarts (n w step : ℕ) : List ℕ :=
  List.range' 0 (pythonRangeLen (n - w + 1) step) step

/-- `np.ptp`: peak-to-peak (max minus min) of a window. -/
def ptp : List ℚ → ℚ
  | [] => 0
  | h :: t => t.foldl max h - t.foldl min h

/-- `int(round(sec * fs))` clamped below by 1, as in
`max(1, int(round(window_sec * fs)))`. -/
def secToSamples (sec fs : ℚ) : ℕ :=
  (max 1 (roundHalfEven (sec * fs))).toNat

structure ArtifactRow where
  t_sec : ℚ
  timestamp : Option ℚ
  amplitude_range : ℚ
  /-- `none` models the NaN ratio of a degenerate window. -/
  line_noise_ratio : Option ℚ
  amplitude_artifact : Bool
  line_noise_artifact : Bool
  artifact : Bool

def arDefault : ArtifactRow := ⟨0, none, 0, none, false, false, false⟩

/-- The row built for the window starting at `start` (loop body, lines
304-334).  NaN never exceeds a finite threshold, so a `none` ratio never
flags a line-noise artifact. -/
def artifactRowAt (lnr : List ℚ → Option ℚ) (samples : List ℚ) (fs : ℚ)
    (ampThr lnThr : Option ℚ) (tsList : Option (List (Option ℚ)))
    (w : ℕ) (start : ℕ) : ArtifactRow :=
  let window := (samples.drop start).take w
  let amplitudeRange := ptp window
  let ratio := lnr window
  let ampArt := match ampThr with
    | some thr => decide (thr < amplitudeRange)
    | none => false
  let lnArt := match lnThr, ratio with
    | some thr, some r => decide (thr < r)
    | _, _ => false
  let mid := start + w / 2
  let tsMid := match tsList with
    | some ts => if mid < ts.length then ts.getD mid none else none
    | none => none
  ⟨((start : ℚ) + (w : ℚ)) / fs, tsMid, amplitudeRange, ratio, ampArt, lnArt,
    ampArt || lnArt⟩

/-- `compute_artifact_metrics(samples, fs, window_sec, step_sec, ...)`:
slide a `max(1, round(window_sec·fs))`-sample window with a
`max(1, round(step_sec·fs))`-sample step; emit one row per fully-contained
window; `timestamps` are used only when supplied and at least one entry
parses. -/
def compute_artifact_metrics (lnr : List ℚ → Option ℚ) (samples : List ℚ)
    (fs : ℚ) (windowSec stepSec : ℚ) (ampThr lnThr : Option ℚ)
    (timestamps : Option (List (Option ℚ))) : List ArtifactRow :=
  let tsList : Option (List (Option ℚ)) := match timestamps with
    | some ts => if ts.any (·.isSome) then some ts else none
    | none => none
  let w := secToSamples windowSec fs
  let step := secToSamples stepSec fs
  if samples.length < w then []
  else (windowStarts samples.length w step).map
    (artifactRowAt lnr samples fs ampThr lnThr tsList w)

/-- C10: every artifact-metrics row's `t_sec` is the window's **end** time
`(start + window_samples) / fs`, while its `timestamp` (when per-sample
timestamps are supplied with at least one parseable entry and the midpoint
index is in range) is the input timestamp at the window's **midpoint** sample
`start + window_samples / 2`; row `i`'s window starts at `i · step_samples`. -/
theorem compute_artifact_metrics_window_times (lnr : List ℚ → Option ℚ)
    (samples : List ℚ) (fs windowSec stepSec : ℚ) (ampThr lnThr : Option ℚ)
    (tsl : List (Option ℚ)) (i : ℕ)
    (hts : tsl.any (·.isSome))
    (hi : i < (compute_artifact_metrics lnr samples fs windowSec stepSec
      ampThr lnThr (some tsl)).length) :
    let rows := compute_artifact_metrics lnr samples fs windowSec stepSec
      ampThr lnThr (some tsl)
    let w := secToSamples windowSec fs
    let step := secToSamples stepSec fs
    (rows.getD i arDefault).t_sec = ((i * step : ℕ) + (w : ℚ)) / fs ∧
    (i * step + w / 2 < tsl.length →
      (rows.getD i arDefault).timestamp = tsl.getD (i * step + w / 2) none) := by
  intro rows w step
  have hrows : rows = (windowStarts samples.length w step).map
      (artifactRowAt lnr samples fs ampThr lnThr (some tsl) w) := by
    show compute_artifact_metrics lnr samples fs windowSec stepSec ampThr lnThr
      (some tsl) = _
    rw [compute_artifact_metrics]
    simp only [hts, if_true]
    split
    · next hlt =>
      exfalso
      have : (compute_artifact_metrics lnr samples fs windowSec stepSec
          ampThr lnThr (some tsl)).length = 0 := by
        rw [compute_artifact_metrics]
        simp only [hts, if_true]
        rw [if_pos hlt]
        rfl
      omega
    · rfl
  have hi' : i < (windowStarts samples.length w step).length := by
    have hx : i < rows.length := hi
    rw [hrows] at hx
    simpa using hx
  have hstart : (windowStarts samples.length w step)[i] = step * i := by
    simp [windowStarts, List.getElem_range']
  have hget : rows.getD i arDefault =
      artifactRowAt lnr samples fs ampThr lnThr (some tsl) w (step * i) := by
    rw [hrows, List.getD_eq_getElem?_getD, List.getElem?_map,
      List.getElem?_eq_getElem hi', hstart]
    rfl
  rw [hget]
  constructor
  · show ((step * i : ℕ) + (w : ℚ)) / fs = _
    rw [Nat.mul_comm step i]
  · intro hmid
    show (if step * i + w / 2 < tsl.length then tsl.getD (step * i + w / 2) none
      else none) = _
    rw [Nat.mul_comm step i] at *
    rw [if_pos hmid]

/-- Witness for C10: `samples = [1,2,3,4]` at 1 Hz with a 2 s window and 1 s
step and timestamps `[10,11,12,13]`: row 0 covers samples 0-1, so its `t_sec`
is the window end `2` and its `timestamp` is the midpoint entry `11`. -/
theorem compute_artifact_metrics_window_times_witness :
    ((compute_artifact_metrics (fun _ => none) [1, 2, 3, 4] 1 2 1 none none
        (some [some 10, some 11, some 12, some 13])).getD 0 arDefault).t_sec = 2 ∧
    ((compute_artifact_metrics (fun _ => none) [1, 2, 3, 4] 1 2 1 none none
        (some [some 10, some 11, some 12, some 13])).getD 0 arDefault).timestamp =
      some 11 := by
  have hw : secToSamples 2 1 = 2 := by
    norm_num [secToSamples, roundHalfEven]
    rfl
  have hstep : secToSamples 1 1 = 1 := by
    norm_num [secToSamples, roundHalfEven]
  have h := compute_artifact_metrics_window_times (fun _ => none) [1, 2, 3, 4]
    1 2 1 none none [some 10, some 11, some 12, some 13] 0 (by decide)
    (by
      rw [compute_artifact_metrics]
      simp only [hw, hstep]
      norm_num [windowStarts, pythonRangeLen])
  simp only [hw, hstep] at h
  refine ⟨?_, ?_⟩
  · rw [h.1]
    norm_num
  · rw [h.2 (by norm_num)]
    rfl

/-! ## `find_ppg_peaks` (eeg_processing_utils.py lines 948-969) -/

/-- `np.percentile(x, q*100)` with the default linear interpolation, and
`_percentile`'s `0.0` for an empty array. -/
def percentileQ (l : List ℚ) (q : ℚ) : ℚ :=
  if l.isEmpty then 0
  else
    let s := l.insertionSort (· ≤ ·)
    let n := s.length
    let pos : ℚ := ((n - 1 : ℕ) : ℚ) * q
    let lo : ℕ := ⌊pos⌋.toNat
    let frac : ℚ := pos - (lo : ℚ)
    if lo + 1 < n then s.getD lo 0 + frac * (s.getD (lo + 1) 0 - s.getD lo 0)
    else s.getD lo 0

/-- One iteration of the peak-scan loop (lines 957-968), on the state
`(peaks reversed, last_peak)`: a candidate (above threshold, strict local
maximum) is appended when it is at least `msp` samples after the last
accepted peak; a too-close candidate replaces the current last peak only
when its amplitude is strictly higher. -/
def ppgStep (samples : List ℚ) (thr : ℚ) (msp : ℕ) :
    List ℕ × ℤ → ℕ → List ℕ × ℤ
  | (revPeaks, last), i =>
    let v := samples.getD i 0
    if v < thr then (revPeaks, last)
    else if samples.getD (i - 1) 0 < v ∧ samples.getD (i + 1) 0 < v then
      if (msp : ℤ) ≤ (i : ℤ) - last then (i :: revPeaks, (i : ℤ))
      else if revPeaks ≠ [] ∧ samples.getD (revPeaks.headD 0) 0 < v then
        (i :: revPeaks.tail, (i : ℤ))
      else (revPeaks, last)
    else (revPeaks, last)

/-- `find_ppg_peaks(samples, sample_rate_hz, min_spacing_sec=0.4)`: running
median + 1.25·MAD threshold (MAD `or 1e-6`), strict-local-maximum candidates,
minimum spacing `max(1, round(sample_rate_hz * min_spacing_sec))`. -/
def find_ppg_peaks (samples : List ℚ) (rate : ℚ) (minSpacingSec : ℚ := 2/5) :
    List ℕ :=
  if samples.length < 3 then []
  else
    let med := percentileQ samples (1/2)
    let mad0 := percentileQ (samples.map fun x => |x - med|) (1/2)
    let mad := if mad0 = 0 then 1/1000000 else mad0
    let thr := med + 5/4 * mad
    let msp := secToSamples minSpacingSec rate
    ((List.range' 1 (samples.length - 2)).foldl (ppgStep samples thr msp)
      ([], -(10 ^ 9))).1.reverse

/-- Loop invariant for the peak scan: the reversed peak list is spaced at
least `msp` apart, its head is `last_peak`, and `last_peak` lies strictly
below every index still to be processed. -/
def PpgInv (msp : ℕ) (bound : ℤ) (st : List ℕ × ℤ) : Prop :=
  st.1.Chain' (fun a b => (b : ℕ) + msp ≤ a) ∧
  (∀ p ∈ st.1.head?, (p : ℤ) = st.2) ∧
  st.2 < bound

lemma ppgStep_inv (samples : List ℚ) (thr : ℚ) (msp : ℕ) (st : List ℕ × ℤ)
    (i : ℕ) (h : PpgInv msp (i : ℤ) st) :
    PpgInv msp ((i : ℤ) + 1) (ppgStep samples thr msp st i) := by
  obtain ⟨peaks, last⟩ := st
  obtain ⟨hchain, hhead, hlt⟩ := h
  simp only at hchain hhead hlt
  simp only [ppgStep]
  split
  · exact ⟨hchain, hhead, by omega⟩
  split
  · split
    · next hfar =>
      refine ⟨?_, by simp, by omega⟩
      cases peaks with
      | nil => simp
      | cons p rest =>
        have hpl : (p : ℤ) = last := hhead p rfl
        exact List.Chain'.cons (by omega) hchain
    · next hnear =>
      split
      · next hrep =>
        obtain ⟨hne, hampl⟩ := hrep
        cases peaks with
        | nil => exact absurd rfl hne
        | cons p rest =>
          have hpl : (p : ℤ) = last := hhead p rfl
          refine ⟨?_, by simp, by omega⟩
          cases rest with
          | nil => simp
          | cons p2 rest2 =>
            refine List.Chain'.cons ?_ hchain.tail
            have h2 := hchain.rel_head
            have h3 : p2 + msp ≤ p := h2
            show p2 + msp ≤ i
            omega
      · exact ⟨hchain, hhead, by omega⟩
  · exact ⟨hchain, hhead, by omega⟩

lemma ppg_fold_inv (samples : List ℚ) (thr : ℚ) (msp : ℕ) :
    ∀ (k j : ℕ) (st : List ℕ × ℤ), PpgInv msp (j : ℤ) st →
      PpgInv msp ((j + k : ℕ) : ℤ)
        ((List.range' j k).foldl (ppgStep samples thr msp) st) := by
  intro k
  induction k with
  | zero => intro j st h; simpa using h
  | succ k ih =>
    intro j st h
    rw [List.range'_succ, List.foldl_cons]
    have h1 : PpgInv msp ((j + 1 : ℕ) : ℤ) (ppgStep samples thr msp st j) := by
      have := ppgStep_inv samples thr msp st j h
      simpa [Int.natCast_add] using this
    have := ih (j + 1) _ h1
    have harith : (j + 1 + k : ℕ) = (j + (k + 1) : ℕ) := by omega
    rwa [harith] at this

/-- C8: any two consecutive indices in the peak list returned by
`find_ppg_peaks` are at least `max(1, round(min_spacing_sec × sampling rate))`
samples apart (the default `min_spacing_sec` is 0.4 s); in particular the
replace-on-higher-amplitude rule never reduces an inter-peak gap below the
minimum spacing. -/
theorem find_ppg_peaks_min_spacing (samples : List ℚ) (rate : ℚ)
    (minSpacingSec : ℚ) :
    (find_ppg_peaks samples rate minSpacingSec).Chain'
      (fun a b => a + secToSamples minSpacingSec rate ≤ b) := by
  rw [find_ppg_peaks]
  split
  · simp
  · have hinv := ppg_fold_inv samples
      (percentileQ samples (1/2) + 5/4 *
        (if percentileQ (samples.map fun x => |x - percentileQ samples (1/2)|)
            (1/2) = 0 then 1/1000000
         else percentileQ (samples.map fun x => |x - percentileQ samples (1/2)|)
            (1/2)))
      (secToSamples minSpacingSec rate) (samples.length - 2) 1 ([], -(10 ^ 9))
      ⟨by simp, by simp, by norm_num⟩
    have hchain := hinv.1
    rw [List.chain'_reverse]
    exact hchain.imp fun a b hab => hab

/-! ## Gap-aware segmentation (eeg_processing_utils.py lines 1617-1628)

`plot_spectrograms_per_label` computes
`diffs = df["timestamp"].diff().dt.total_seconds().fillna(0)`, takes the
median of the strictly positive diffs (falling back to `1/channel_rate`
when there are none), sets `gap_threshold = 2 * median_diff` when that
median is positive (else `2/channel_rate`), and starts a new segment at
every index whose diff strictly exceeds the threshold. -/

/-- Successive timestamp differences with the leading `NaN` filled as 0:
`diffs[0] = 0`, `diffs[i] = ts[i] - ts[i-1]`. -/
def gapDiffs (ts : List ℚ) : List ℚ :=
  0 :: ts.tail.zipWith (· - ·) ts

/-- `positive_diffs = diffs[diffs > 0]`. -/
def positiveDiffs (ts : List ℚ) : List ℚ :=
  (gapDiffs ts).filter fun d => decide (0 < d)

/-- `median_diff = positive_diffs.median() if not positive_diffs.empty
else (1.0 / channel_rate)`. -/
def medianDiff (ts : List ℚ) (rate : ℚ) : ℚ :=
  if positiveDiffs ts = [] then 1 / rate else medianQ (positiveDiffs ts)

/-- `gap_threshold = 2 * median_diff if median_diff > 0 else (2.0 / channel_rate)`. -/
def gapThreshold (ts : List ℚ) (rate : ℚ) : ℚ :=
  if 0 < medianDiff ts rate then 2 * medianDiff ts rate else 2 / rate

/-- The segmentation loop: scan `idx` from 1, cutting `[start, idx)` whenever
`diffs[idx] > gap_threshold`, and close the final segment at `n`. -/
def segGo (d : ℕ → ℚ) (thr : ℚ) (n : ℕ) (idx start : ℕ) : List (ℕ × ℕ) :=
  if h : idx < n then
    if thr < d idx then (start, idx) :: segGo d thr n (idx + 1) idx
    else segGo d thr n (idx + 1) start
  else [(start, n)]
  termination_by n - idx

/-- The gap-delimited segments of a timestamped series, as half-open index
ranges `[start, stop)`. -/
def segmentsOf (ts : List ℚ) (rate : ℚ) : List (ℕ × ℕ) :=
  segGo (fun i => (gapDiffs ts).getD i 0) (gapThreshold ts rate) ts.length 1 0

/-- Modelled from the spec's words (section 4.4): the gap threshold is
`2 × median of the positive successive differences`, falling back to a
`1/samplingRate`-based value (`2 × (1/rate)`) when no positive median
exists. -/
def specGapThreshold (ts : List ℚ) (rate : ℚ) : ℚ :=
  if positiveDiffs ts ≠ [] then 2 * medianQ (positiveDiffs ts) else 2 * (1 / rate)

/-- Cutting `[0, n)` at an increasing list of boundary indices. -/
def chunksFrom (n : ℕ) (start : ℕ) : List ℕ → List (ℕ × ℕ)
  | [] => [(start, n)]
  | b :: bs => (start, b) :: chunksFrom n b bs

lemma medianQ_pos (l : List ℚ) (hne : l ≠ []) (hpos : ∀ x ∈ l, 0 < x) :
    0 < medianQ l := by
  rw [medianQ]
  have hperm := List.perm_insertionSort (· ≤ ·) l
  have hlen : (l.insertionSort (· ≤ ·)).length = l.length := hperm.length_eq
  have hn : 0 < l.length := List.length_pos.mpr hne
  have hmem : ∀ i, i < l.length → 0 < (l.insertionSort (· ≤ ·)).getD i 0 := by
    intro i hi
    have hi' : i < (l.insertionSort (· ≤ ·)).length := by omega
    rw [List.getD_eq_getElem?_getD, List.getElem?_eq_getElem hi']
    exact hpos _ (hperm.mem_iff.mp (List.getElem_mem hi'))
  simp only [hlen]
  rw [if_neg (by omega)]
  split
  · exact hmem _ (by omega)
  · have h1 := hmem (l.length / 2 - 1) (by omega)
    have h2 := hmem (l.length / 2) (by omega)
    positivity

lemma segGo_eq_chunks (d : ℕ → ℚ) (thr : ℚ) (n : ℕ) :
    ∀ (k idx start : ℕ), n - idx = k →
      segGo d thr n idx start =
        chunksFrom n start ((List.range' idx k).filter fun i => decide (thr < d i)) := by
  intro k
  induction k with
  | zero =>
    intro idx start hk
    rw [segGo]
    rw [dif_neg (by omega)]
    rfl
  | succ k ih =>
    intro idx start hk
    have hlt : idx < n := by omega
    rw [segGo, dif_pos hlt, List.range'_succ]
    rw [List.filter_cons]
    by_cases hgap : thr < d idx
    · rw [if_pos hgap, if_pos (by simpa using hgap)]
      rw [chunksFrom]
      rw [ih (idx + 1) idx (by omega)]
    · rw [if_neg hgap, if_neg (by simpa using hgap)]
      rw [ih (idx + 1) start (by omega)]

/-- C3: for a timestamp sequence of at least 2 points, the code's gap
threshold coincides with the spec's `2 × median of positive successive
differences` (with the `2 × (1/rate)` fallback when no positive difference
exists), and the segmentation cuts a new segment exactly at the indices whose
successive difference strictly exceeds that threshold. -/
theorem segmentation_splits_at_spec_threshold (ts : List ℚ) (rate : ℚ)
    (_h2 : 2 ≤ ts.length) :
    gapThreshold ts rate = specGapThreshold ts rate ∧
    segmentsOf ts rate =
      chunksFrom ts.length 0 ((List.range' 1 (ts.length - 1)).filter
        fun i => decide (specGapThreshold ts rate < (gapDiffs ts).getD i 0)) := by
  have hthr : gapThreshold ts rate = specGapThreshold ts rate := by
    by_cases hpd : positiveDiffs ts = []
    · rw [gapThreshold, medianDiff, specGapThreshold]
      rw [if_pos hpd, if_neg (not_not_intro hpd)]
      by_cases hr : 0 < 1 / rate
      · rw [if_pos hr]
      · rw [if_neg hr]
        ring
    · have hpos : 0 < medianQ (positiveDiffs ts) := by
        apply medianQ_pos _ hpd
        intro x hx
        simpa using (List.mem_filter.mp hx).2
      rw [gapThreshold, medianDiff, specGapThreshold]
      rw [if_neg hpd, if_pos hpos, if_pos hpd]
  refine ⟨hthr, ?_⟩
  rw [segmentsOf, segGo_eq_chunks _ _ _ (ts.length - 1) 1 0 (by omega), hthr]

/-- Witness for C3: the spec's 10-sample example — uniform 1 s spacing with a
10 s gap between index 4 and index 5 — has gap threshold 2 (twice the median
positive difference 1) and splits into exactly the index segments `[0..4]`
(i.e. `[0,5)`) and `[5..9]` (i.e. `[5,10)`). -/
theorem segmentation_splits_at_spec_threshold_witness :
    specGapThreshold [0, 1, 2, 3, 4, 14, 15, 16, 17, 18] 1 = 2 ∧
    segmentsOf [0, 1, 2, 3, 4, 14, 15, 16, 17, 18] 1 = [(0, 5), (5, 10)] := by
  have hdiffs : gapDiffs [0, 1, 2, 3, 4, 14, 15, 16, 17, 18] =
      [0, 1, 1, 1, 1, 10, 1, 1, 1, 1] := by
    norm_num [gapDiffs, List.zipWith]
  have hpos : positiveDiffs [0, 1, 2, 3, 4, 14, 15, 16, 17, 18] =
      [1, 1, 1, 1, 10, 1, 1, 1, 1] := by
    rw [positiveDiffs, hdiffs]
    norm_num [List.filter]
  have hthr : specGapThreshold [0, 1, 2, 3, 4, 14, 15, 16, 17, 18] 1 = 2 := by
    rw [specGapThreshold, if_pos (by rw [hpos]; simp), hpos]
    norm_num [medianQ, List.insertionSort, List.orderedInsert, List.getD]
  refine ⟨hthr, ?_⟩
  have h := (segmentation_splits_at_spec_threshold
    [0, 1, 2, 3, 4, 14, 15, 16, 17, 18] 1 (by norm_num)).2
  rw [h, hthr, hdiffs]
  norm_num [List.range', List.filter, List.getD, chunksFrom]

/-! ## `load_label_timeseries` (eeg_processing_utils.py lines 1393-1428)

Exports are modelled post-parse: `captureStart` is the already-coerced
capture timestamp (`export_capture_start`), `file` is the `_file` tag.
`sort_values("timestamp")` is embedded as a stable insertion sort on the
timestamp key (pandas' quicksort leaves the relative order of equal
timestamps unspecified; every property proved here is independent of that
tie order), and `drop_duplicates(subset=["timestamp", "file"])` as a
keep-first deduplication on the `(timestamp, file)` key. -/

def DEFAULT_FS : ℚ := 256

structure Export where
  /-- `export.get("_file")`. -/
  file : Option String
  /-- `export_capture_start(export)`, already coerced; `none` if unparseable. -/
  captureStart : Option ℚ
  samplingRateHz : Option ℚ
  channels : List Channel

/-- `channel_label`: `channel.get("label") or channel.get("electrode")`
(Python `or`: an empty string also falls through). -/
def channel_label (ch : Channel) : Option String :=
  match ch.label with
  | some s => if s = "" then ch.electrode else some s
  | none => ch.electrode

/-- `export_file_sampling_rate`: `export.get("samplingRateHz") or default_fs`
(`0` is falsy). -/
def export_file_sampling_rate (e : Export) : ℚ :=
  match e.samplingRateHz with
  | some r => if r = 0 then DEFAULT_FS else r
  | none => DEFAULT_FS

/-- `channel_sampling_rate_hz`:
`channel.get("samplingRateHz") or file_sampling_rate_hz or default_fs`. -/
def channel_sampling_rate_hz (ch : Channel) (fileRate : ℚ) : ℚ :=
  let fallback := if fileRate = 0 then DEFAULT_FS else fileRate
  match ch.samplingRateHz with
  | some r => if r = 0 then fallback else r
  | none => fallback

/-- A merged row before `dropna`: `(timestamp, sample, file, sampling_rate)`. -/
def labelRows (exports : List Export) (label : String) :
    List (Option ℚ × ℚ × Option String × ℚ) :=
  exports.flatMap fun e =>
    (e.channels.filter fun ch => decide (channel_label ch = some label)).flatMap
      fun ch =>
        let rate := channel_sampling_rate_hz ch (export_file_sampling_rate e)
        match channel_timebase ch e.captureStart (some rate) with
        | none => []
        | some tb =>
          if tb.all (·.isNone) then []
          else (tb.zip ch.samples).map fun p => (p.1, p.2, e.file, rate)

/-- The rows surviving `dropna(subset=["timestamp"])`. -/
def validRows (exports : List Export) (label : String) :
    List (ℚ × ℚ × Option String × ℚ) :=
  (labelRows exports label).filterMap fun r =>
    r.1.map fun t => (t, r.2.1, r.2.2.1, r.2.2.2)

/-- Keep-first deduplication on a key (`drop_duplicates(..., keep="first")`). -/
def dedupByKey {α κ : Type} [DecidableEq κ] (key : α → κ) : List α → List α
  | [] => []
  | a :: rest => a :: dedupByKey key (rest.filter fun b => decide (key b ≠ key a))
  termination_by l => l.length
  decreasing_by
    simp only [List.length_cons]
    exact Nat.lt_succ_of_le (List.length_filter_le _ _)

/-- One output row of `load_label_timeseries`. -/
structure TSRow where
  timestamp : ℚ
  sample : ℚ
  file : Option String
  sampling_rate_hz : ℚ
  t_sec : ℚ

/-- `load_label_timeseries(exports, label)`: concatenate the per-channel
resolved rows, drop unresolved timestamps, sort ascending by timestamp,
drop `(timestamp, file)` duplicates keeping the first, then compute `t_sec`
relative to the first retained timestamp. -/
def load_label_timeseries (exports : List Export) (label : String) : List TSRow :=
  let sorted := (validRows exports label).insertionSort fun a b => a.1 ≤ b.1
  let deduped := dedupByKey (fun r => (r.1, r.2.2.1)) sorted
  match deduped.head? with
  | none => []
  | some r0 => deduped.map fun r => ⟨r.1, r.2.1, r.2.2.1, r.2.2.2, r.1 - r0.1⟩

lemma dedupByKey_sublist {α κ : Type} [DecidableEq κ] (key : α → κ) :
    ∀ (n : ℕ) (l : List α), l.length ≤ n → List.Sublist (dedupByKey key l) l := by
  intro n
  induction n with
  | zero =>
    intro l hl
    have hnil : l = [] := List.eq_nil_of_length_eq_zero (Nat.le_zero.mp hl)
    subst hnil
    rw [dedupByKey]
  | succ n ih =>
    intro l hl
    cases l with
    | nil => rw [dedupByKey]
    | cons a rest =>
      rw [dedupByKey]
      refine List.Sublist.cons₂ a ?_
      have h1 : (rest.filter fun b => decide (key b ≠ key a)).length ≤ n := by
        have := List.length_filter_le (fun b => decide (key b ≠ key a)) rest
        simp only [List.length_cons] at hl
        omega
      exact (ih _ h1).trans (List.filter_sublist rest)

lemma dedupByKey_pairwise {α κ : Type} [DecidableEq κ] (key : α → κ) :
    ∀ (n : ℕ) (l : List α), l.length ≤ n →
      (dedupByKey key l).Pairwise fun a b => key a ≠ key b := by
  intro n
  induction n with
  | zero =>
    intro l hl
    have hnil : l = [] := List.eq_nil_of_length_eq_zero (Nat.le_zero.mp hl)
    subst hnil
    rw [dedupByKey]
    exact List.Pairwise.nil
  | succ n ih =>
    intro l hl
    cases l with
    | nil => rw [dedupByKey]; exact List.Pairwise.nil
    | cons a rest =>
      rw [dedupByKey]
      have h1 : (rest.filter fun b => decide (key b ≠ key a)).length ≤ n := by
        have := List.length_filter_le (fun b => decide (key b ≠ key a)) rest
        simp only [List.length_cons] at hl
        omega
      refine List.Pairwise.cons ?_ (ih _ h1)
      intro b hb
      have hbmem : b ∈ rest.filter fun b => decide (key b ≠ key a) :=
        (dedupByKey_sublist key n _ h1).mem hb
      have := (List.mem_filter.mp hbmem).2
      simp only [decide_eq_true_eq] at this
      exact fun hab => this (hab ▸ rfl)

lemma dedupByKey_retains {α κ : Type} [DecidableEq κ] (key : α → κ) :
    ∀ (n : ℕ) (l : List α), l.length ≤ n →
      ∀ r ∈ l, ∃ s ∈ dedupByKey key l, key s = key r := by
  intro n
  induction n with
  | zero =>
    intro l hl r hr
    have hnil : l = [] := List.eq_nil_of_length_eq_zero (Nat.le_zero.mp hl)
    subst hnil
    exact absurd hr (List.not_mem_nil r)
  | succ n ih =>
    intro l hl r hr
    cases l with
    | nil => exact absurd hr (List.not_mem_nil r)
    | cons a rest =>
      rw [dedupByKey]
      by_cases hk : key r = key a
      · exact ⟨a, List.mem_cons_self _ _, hk.symm⟩
      · have hrrest : r ∈ rest := by
          cases List.mem_cons.mp hr with
          | inl h => exact absurd (h ▸ rfl) hk
          | inr h => exact h
        have hrfil : r ∈ rest.filter fun b => decide (key b ≠ key a) :=
          List.mem_filter.mpr ⟨hrrest, by simpa using hk⟩
        have h1 : (rest.filter fun b => decide (key b ≠ key a)).length ≤ n := by
          have := List.length_filter_le (fun b => decide (key b ≠ key a)) rest
          simp only [List.length_cons] at hl
          omega
        obtain ⟨s, hs, hks⟩ := ih _ h1 r hrfil
        exact ⟨s, List.mem_cons_of_mem a hs, hks⟩

def tsDefault : TSRow := ⟨0, 0, none, 0, 0⟩

lemma dedupByKey_ne_nil {α κ : Type} [DecidableEq κ] (key : α → κ) (l : List α)
    (h : l ≠ []) : dedupByKey key l ≠ [] := by
  cases l with
  | nil => exact absurd rfl h
  | cons a rest =>
    rw [dedupByKey]
    simp

/-- C7: the merged series returned by `load_label_timeseries` is sorted in
non-decreasing timestamp order, no two of its rows share the same
`(timestamp, file)` pair, every `(timestamp, file)` pair of the concatenated
valid input rows keeps at least one representative (so same-timestamp rows
from *different* files are all retained), and `t_sec` is relative to the
first retained row — in particular the first row's `t_sec` is 0. -/
theorem load_label_timeseries_invariants (exports : List Export) (label : String) :
    (load_label_timeseries exports label).Pairwise
      (fun a b => a.timestamp ≤ b.timestamp) ∧
    (load_label_timeseries exports label).Pairwise
      (fun a b => ¬(a.timestamp = b.timestamp ∧ a.file = b.file)) ∧
    (∀ r ∈ validRows exports label, ∃ s ∈ load_label_timeseries exports label,
      s.timestamp = r.1 ∧ s.file = r.2.2.1) ∧
    (load_label_timeseries exports label ≠ [] →
      ((load_label_timeseries exports label).headD tsDefault).t_sec = 0 ∧
      ∀ r ∈ load_label_timeseries exports label,
        r.t_sec = r.timestamp -
          ((load_label_timeseries exports label).headD tsDefault).timestamp) := by
  classical
  set valid := validRows exports label with hvalid
  set sorted := valid.insertionSort (fun a b => a.1 ≤ b.1) with hsortedDef
  set deduped := dedupByKey (fun r => (r.1, r.2.2.1)) sorted with hdedupDef
  haveI htot : IsTotal (ℚ × ℚ × Option String × ℚ) (fun a b => a.1 ≤ b.1) :=
    ⟨fun a b => le_total a.1 b.1⟩
  haveI htr : IsTrans (ℚ × ℚ × Option String × ℚ) (fun a b => a.1 ≤ b.1) :=
    ⟨fun _ _ _ hab hbc => le_trans hab hbc⟩
  have hsorted : sorted.Pairwise (fun a b => a.1 ≤ b.1) :=
    List.sorted_insertionSort _ valid
  have hsub : List.Sublist deduped sorted :=
    dedupByKey_sublist _ sorted.length sorted le_rfl
  have hdsorted : deduped.Pairwise (fun a b => a.1 ≤ b.1) :=
    hsorted.sublist hsub
  have hdkeys : deduped.Pairwise
      (fun a b => (a.1, a.2.2.1) ≠ (b.1, b.2.2.1)) :=
    dedupByKey_pairwise _ sorted.length sorted le_rfl
  cases hdd : deduped with
  | nil =>
    have hout : load_label_timeseries exports label = [] := by
      rw [load_label_timeseries, ← hsortedDef, ← hdedupDef, hdd]
      rfl
    refine ⟨by rw [hout]; exact List.Pairwise.nil,
      by rw [hout]; exact List.Pairwise.nil, ?_, by rw [hout]; intro h; exact absurd rfl h⟩
    intro r hr
    exfalso
    have hsnil : sorted = [] := by
      by_contra hne
      exact dedupByKey_ne_nil _ sorted hne (hdedupDef ▸ hdd)
    have hperm := List.perm_insertionSort (fun a b => a.1 ≤ b.1) valid
    rw [← hsortedDef, hsnil] at hperm
    have hv : valid = [] := List.Perm.eq_nil hperm.symm
    have hr' : r ∈ validRows exports label := hr
    rw [hvalid] at hv
    rw [hv] at hr'
    exact List.not_mem_nil r hr'
  | cons r0 tail =>
    have hout : load_label_timeseries exports label =
        (r0 :: tail).map fun r =>
          (⟨r.1, r.2.1, r.2.2.1, r.2.2.2, r.1 - r0.1⟩ : TSRow) := by
      rw [load_label_timeseries, ← hsortedDef, ← hdedupDef, hdd]
      rfl
    rw [hdd] at hdsorted hdkeys
    refine ⟨?_, ?_, ?_, ?_⟩
    · rw [hout, List.pairwise_map]
      exact hdsorted.imp fun h => h
    · rw [hout, List.pairwise_map]
      refine hdkeys.imp fun {a b} h => ?_
      intro ⟨h1, h2⟩
      exact h (by rw [Prod.mk.injEq]; exact ⟨h1, h2⟩)
    · intro r hr
      have hrs : r ∈ sorted :=
        (List.perm_insertionSort (fun a b => a.1 ≤ b.1) valid).mem_iff.mpr
          (hvalid ▸ hr)
      obtain ⟨s, hs, hks⟩ :=
        dedupByKey_retains (fun r => (r.1, r.2.2.1)) sorted.length sorted
          le_rfl r hrs
      rw [← hdedupDef, hdd] at hs
      refine ⟨⟨s.1, s.2.1, s.2.2.1, s.2.2.2, s.1 - r0.1⟩, ?_, ?_, ?_⟩
      · rw [hout]
        exact List.mem_map.mpr ⟨s, hs, rfl⟩
      · exact (Prod.mk.injEq _ _ _ _).mp hks |>.1
      · exact (Prod.mk.injEq _ _ _ _).mp hks |>.2
    · intro _
      constructor
      · rw [hout]
        simp
      · intro r hr
        rw [hout] at hr
        obtain ⟨s, _, rfl⟩ := List.mem_map.mp hr
        rw [hout]
        simp

/-- Witness for C7: merging two files for label "TP9" — file "a" with
timestamps `[0, 1]` and file "b" with the overlapping timestamp `[1]` —
yields an ascending series in which both same-timestamp rows are retained
(they come from different files), no `(timestamp, file)` pair repeats, and
the first row's `t_sec` is 0. -/
theorem load_label_timeseries_invariants_witness :
    load_label_timeseries
        [⟨some "a", none, none, [⟨some "TP9", none, [1, 2], [some 0, some 1], none⟩]⟩,
         ⟨some "b", none, none, [⟨some "TP9", none, [5], [some 1], none⟩]⟩] "TP9" =
      [⟨0, 1, some "a", 256, 0⟩, ⟨1, 2, some "a", 256, 1⟩, ⟨1, 5, some "b", 256, 1⟩] ∧
    ((load_label_timeseries
        [⟨some "a", none, none, [⟨some "TP9", none, [1, 2], [some 0, some 1], none⟩]⟩,
         ⟨some "b", none, none, [⟨some "TP9", none, [5], [some 1], none⟩]⟩]
        "TP9").headD tsDefault).t_sec = 0 := by
  have hval : load_label_timeseries
      [⟨some "a", none, none, [⟨some "TP9", none, [1, 2], [some 0, some 1], none⟩]⟩,
       ⟨some "b", none, none, [⟨some "TP9", none, [5], [some 1], none⟩]⟩] "TP9" =
      [⟨0, 1, some "a", 256, 0⟩, ⟨1, 2, some "a", 256, 1⟩, ⟨1, 5, some "b", 256, 1⟩] := by
    rw [load_label_timeseries, validRows, labelRows]
    norm_num [channel_timebase, channel_label, channel_sampling_rate_hz,
      export_file_sampling_rate, DEFAULT_FS, List.insertionSort, List.orderedInsert,
      dedupByKey, List.filter, show ("b" : String) ≠ "a" by decide,
      show ("a" : String) ≠ "b" by decide]
  refine ⟨hval, ?_⟩
  exact (load_label_timeseries_invariants _ "TP9").2.2.2 (by rw [hval]; simp) |>.1

/-! ## Spectral windows and gap segmentation (C2)

`compute_band_power_timeseries` (lines 1723-1816) slides a fixed
`NPERSEG = 1024` sample Welch window with step `step_samples`
(default `NPERSEG // 2`) over the **full** sample array; it never consults
timestamps, so its windows are `[k·step, k·step + 1024)` regardless of any
sampling discontinuity.  `plot_spectrograms_per_label` (lines 1617-1651), in
contrast, first splits the series into gap-delimited segments (4.4) and
computes each spectrogram only inside one segment. -/

def NPERSEG : ℕ := 1024

/-- The sample-index windows of `compute_band_power_timeseries`:
`range(0, len - NPERSEG + 1, step_samples)` with `step_samples or'd` to
`NPERSEG // 2`, each covering `[start, start + NPERSEG)`; empty when the
series is shorter than one Welch segment. -/
def computeBandPowerWindows (n : ℕ) (stepSamples : Option ℕ) : List (ℕ × ℕ) :=
  let step := stepSamples.getD (NPERSEG / 2)
  if n < NPERSEG then []
  else (windowStarts n NPERSEG step).map fun s => (s, s + NPERSEG)

/-- `scipy.signal.spectrogram` segment starts for a signal of length `n`:
steps of `nperseg - noverlap`, last segment fully contained. -/
def spectrogramWindowStarts (n nperseg noverlap : ℕ) : List ℕ :=
  if n < nperseg then []
  else List.range' 0 ((n - nperseg) / (nperseg - noverlap) + 1) (nperseg - noverlap)

/-- The absolute sample-index windows of the per-label spectrogram path:
one spectrogram per gap-delimited segment, skipping segments shorter than
`nperseg`; each window lies at `segment start + relative offset`. -/
def plotSpectrogramWindows (ts : List ℚ) (rate : ℚ) (nperseg noverlap : ℕ) :
    List (ℕ × ℕ) :=
  (segmentsOf ts rate).flatMap fun seg =>
    let len := seg.2 - seg.1
    if len < nperseg then []
    else (spectrogramWindowStarts len nperseg noverlap).map
      fun s => (seg.1 + s, seg.1 + s + nperseg)

/-- C2 amended, positive half: every window of the per-label spectrogram path
is contained in a single gap-delimited segment — the spectrogram transform is
never applied across a discontinuity. -/
theorem plot_spectrogram_windows_within_segments (ts : List ℚ) (rate : ℚ)
    (nperseg noverlap : ℕ) (hnov : noverlap < nperseg) (w : ℕ × ℕ)
    (hw : w ∈ plotSpectrogramWindows ts rate nperseg noverlap) :
    ∃ seg ∈ segmentsOf ts rate, seg.1 ≤ w.1 ∧ w.2 ≤ seg.2 := by
  rw [plotSpectrogramWindows] at hw
  obtain ⟨seg, hseg, hwseg⟩ := List.mem_flatMap.mp hw
  refine ⟨seg, hseg, ?_⟩
  dsimp only at hwseg
  split at hwseg
  · exact absurd hwseg (List.not_mem_nil w)
  · next hlen =>
    obtain ⟨s, hs, rfl⟩ := List.mem_map.mp hwseg
    rw [spectrogramWindowStarts, if_neg hlen] at hs
    obtain ⟨k, hk, rfl⟩ := List.mem_range'.mp hs
    have hstep : 0 < nperseg - noverlap := by omega
    have hsle : (nperseg - noverlap) * k ≤ seg.2 - seg.1 - nperseg := by
      have hkle : k ≤ (seg.2 - seg.1 - nperseg) / (nperseg - noverlap) := by omega
      calc (nperseg - noverlap) * k
          ≤ (nperseg - noverlap) * ((seg.2 - seg.1 - nperseg) / (nperseg - noverlap)) :=
            Nat.mul_le_mul_left _ hkle
        _ ≤ seg.2 - seg.1 - nperseg := Nat.mul_div_le _ _
    constructor
    · omega
    · dsimp only
      omega

/-- Witness for the amended C2: a gap-free 4-sample series at 1 Hz with
`nperseg = 2`, `noverlap = 1` produces the window `(1, 3)`, and that window is
contained in a segment. -/
theorem plot_spectrogram_windows_within_segments_witness :
    (1, 3) ∈ plotSpectrogramWindows [0, 1, 2, 3] 1 2 1 ∧
    ∃ seg ∈ segmentsOf [0, 1, 2, 3] 1, seg.1 ≤ 1 ∧ 3 ≤ seg.2 := by
  have hseg : segmentsOf [0, 1, 2, 3] 1 = [(0, 4)] := by
    rw [segmentsOf, segGo_eq_chunks _ _ _ 3 1 0 (by norm_num)]
    have hthr : gapThreshold [0, 1, 2, 3] 1 = 2 := by
      norm_num [gapThreshold, medianDiff, positiveDiffs, gapDiffs, List.zipWith,
        List.filter, medianQ, List.insertionSort, List.orderedInsert, List.getD]
    rw [hthr]
    norm_num [List.range', List.filter, List.getD, gapDiffs, List.zipWith, chunksFrom]
  have hmem : (1, 3) ∈ plotSpectrogramWindows [0, 1, 2, 3] 1 2 1 := by
    rw [plotSpectrogramWindows, hseg]
    norm_num [spectrogramWindowStarts, List.range']
  exact ⟨hmem,
    plot_spectrogram_windows_within_segments [0, 1, 2, 3] 1 2 1 (by norm_num)
      (1, 3) hmem⟩

/-- Timestamp generator for the C2 counterexample: 1 s spacing with a 100 s
jump before the very last sample. -/
def fC2 (i : ℕ) : ℚ := if i < 1023 then (i : ℚ) else (i : ℚ) + 100

/-- A 1024-sample timestamp series with a gap between index 1022 and 1023. -/
def tsC2 : List ℚ := (List.range 1024).map fC2

/-- Its successive differences (after the diff lemma below):
`1` everywhere except `101` at the last step. -/
def dC2 (j : ℕ) : ℚ := fC2 (j + 1) - fC2 j

lemma zipWith_sub_map_range (f : ℕ → ℚ) (n : ℕ) :
    List.zipWith (· - ·) ((List.range n).map f).tail ((List.range n).map f) =
      (List.range (n - 1)).map fun i => f (i + 1) - f i := by
  apply List.ext_getElem
  · simp
  · intro i h1 h2
    simp only [List.getElem_zipWith, List.getElem_tail, List.getElem_map,
      List.getElem_range]

lemma dC2_small (j : ℕ) (h : j < 1022) : dC2 j = 1 := by
  rw [dC2, fC2, fC2, if_pos (by omega), if_pos (by omega)]
  push_cast
  ring

lemma dC2_last : dC2 1022 = 101 := by
  rw [dC2, fC2, fC2, if_neg (by omega), if_pos (by omega)]
  norm_num

lemma gapDiffs_tsC2 : gapDiffs tsC2 =
    0 :: (List.range 1023).map dC2 := by
  rw [gapDiffs, tsC2, zipWith_sub_map_range]
  rfl

lemma positiveDiffs_tsC2 : positiveDiffs tsC2 = (List.range 1023).map dC2 := by
  rw [positiveDiffs, gapDiffs_tsC2, List.filter_cons]
  rw [if_neg (by norm_num)]
  apply List.filter_eq_self.mpr
  intro x hx
  obtain ⟨j, hj, rfl⟩ := List.mem_map.mp hx
  have hj' : j < 1023 := List.mem_range.mp hj
  by_cases hsmall : j < 1022
  · rw [dC2_small j hsmall]
    norm_num
  · have : j = 1022 := by omega
    rw [this, dC2_last]
    norm_num

lemma dC2_sorted : ((List.range 1023).map dC2).Sorted (· ≤ ·) := by
  rw [List.Sorted, List.pairwise_iff_getElem]
  intro i j h1 h2 hij
  simp only [List.getElem_map, List.getElem_range]
  simp only [List.length_map, List.length_range] at h1 h2
  by_cases hj : j < 1022
  · rw [dC2_small i (by omega), dC2_small j hj]
  · have hj' : j = 1022 := by omega
    rw [hj', dC2_last, dC2_small i (by omega)]
    norm_num

lemma medianQ_dC2 : medianQ ((List.range 1023).map dC2) = 1 := by
  rw [medianQ]
  rw [List.Sorted.insertionSort_eq dC2_sorted]
  simp only [List.length_map, List.length_range]
  rw [if_neg (by norm_num), if_pos (by norm_num)]
  have h511 : (511 : ℕ) < ((List.range 1023).map dC2).length := by simp
  rw [List.getD_eq_getElem?_getD, List.getElem?_eq_getElem h511]
  simp only [List.getElem_map, List.getElem_range, Option.getD_some]
  exact dC2_small 511 (by omega)

lemma gapThreshold_tsC2 : gapThreshold tsC2 1 = 2 := by
  rw [gapThreshold, medianDiff, positiveDiffs_tsC2]
  have hne : ((List.range 1023).map dC2) ≠ [] := by simp
  rw [if_neg hne, medianQ_dC2]
  norm_num

lemma gapDiffs_tsC2_getD (j : ℕ) (h : j < 1023) :
    (gapDiffs tsC2).getD (j + 1) 0 = dC2 j := by
  rw [gapDiffs_tsC2, List.getD_cons_succ, List.getD_eq_getElem?_getD,
    List.getElem?_eq_getElem (by simpa using h)]
  simp

lemma segmentsOf_tsC2 : segmentsOf tsC2 1 = [(0, 1023), (1023, 1024)] := by
  have hlen : tsC2.length = 1024 := by simp [tsC2]
  rw [segmentsOf, hlen, segGo_eq_chunks _ _ _ 1023 1 0 (by omega)]
  have hfil : (List.range' 1 1023).filter
      (fun i => decide (gapThreshold tsC2 1 < (gapDiffs tsC2).getD i 0)) = [1023] := by
    have hsplit : List.range' 1 1023 = List.range' 1 1022 ++ [1023] := by
      have h := @List.range'_concat 1 1 1022
      simpa using h
    rw [hsplit, List.filter_append]
    have h1 : (List.range' 1 1022).filter
        (fun i => decide (gapThreshold tsC2 1 < (gapDiffs tsC2).getD i 0)) = [] := by
      rw [List.filter_eq_nil_iff]
      intro i hi
      obtain ⟨k, hk, rfl⟩ := List.mem_range'.mp hi
      have hk' : k < 1022 := by omega
      have : 1 + 1 * k = k + 1 := by omega
      rw [this, gapThreshold_tsC2, gapDiffs_tsC2_getD k (by omega), dC2_small k hk']
      norm_num
    rw [h1]
    have h2 : (gapDiffs tsC2).getD 1023 0 = 101 := by
      have := gapDiffs_tsC2_getD 1022 (by omega)
      rw [dC2_last] at this
      exact this
    rw [List.filter_cons]
    rw [if_pos (by rw [gapThreshold_tsC2, h2]; norm_num)]
    rfl
  rw [hfil]
  rfl

/-- C2 counterexample: a 1024-sample series whose timestamps jump by 101 s
(threshold 2 s) right before the last sample.  The series contains a gap in
the sense of section 4.4, yet the sliding-window band-power estimator emits
the Welch window `[0, 1024)`, which is contained in no gap-delimited segment
— the band-power spectral estimate is computed across the discontinuity. -/
theorem band_power_window_spans_gap_counterexample :
    gapThreshold tsC2 1 < (gapDiffs tsC2).getD 1023 0 ∧
    (0, 1024) ∈ computeBandPowerWindows tsC2.length none ∧
    ∀ seg ∈ segmentsOf tsC2 1, ¬(seg.1 ≤ 0 ∧ 1024 ≤ seg.2) := by
  refine ⟨?_, ?_, ?_⟩
  · rw [gapThreshold_tsC2]
    have h2 := gapDiffs_tsC2_getD 1022 (by omega)
    rw [dC2_last] at h2
    rw [show (1023 : ℕ) = 1022 + 1 from rfl, h2]
    norm_num
  · have hlen : tsC2.length = 1024 := by simp [tsC2]
    rw [hlen]
    rw [computeBandPowerWindows]
    simp only [Option.getD_none]
    rw [if_neg (by norm_num [NPERSEG])]
    have : windowStarts 1024 NPERSEG (NPERSEG / 2) = [0] := by
      rw [windowStarts, NPERSEG]
      norm_num [pythonRangeLen, List.range']
    rw [this]
    simp [NPERSEG]
  · rw [segmentsOf_tsC2]
    decide

/-! ## `spo2_ratio_of_ratios` (ppg_utils.py lines 28-105)

The FFT-based DC/AC filters are embedded exactly over `ℝ`/`ℂ`:
`np.fft.rfft` as the finite Fourier sum, the frequency mask as zeroing of
coefficients, and `np.fft.irfft` as the inverse sum with Hermitian
reconstruction of the upper half of the spectrum.  Real numbers have no NaN
or infinity, so `np.isfinite` is the constant-true predicate here and the
`PI_NAN` branch is unreachable in the model (in NumPy it guards float
overflow only). -/

/-- `np.fft.rfft(x)[k] = Σ_j x_j · exp(-2πi·j·k/n)`. -/
noncomputable def rfftCoeff (x : List ℝ) (k : ℕ) : ℂ :=
  ∑ j ∈ Finset.range x.length,
    (x.getD j 0 : ℂ) *
      Complex.exp (-2 * Real.pi * Complex.I * j * k / x.length)

/-- `np.fft.rfftfreq(n, d=1/rate)[k] = k·rate/n`. -/
noncomputable def rfftfreqVal (n : ℕ) (rate : ℝ) (k : ℕ) : ℝ :=
  k * rate / n

/-- `np.fft.irfft(c, n)[j]`: inverse transform with the upper half of the
spectrum reconstructed as the conjugate of the lower half. -/
noncomputable def irfftReal (c : ℕ → ℂ) (n : ℕ) (j : ℕ) : ℝ :=
  ((1 / (n : ℂ)) * ∑ k ∈ Finset.range n,
    (if k ≤ n / 2 then c k else (starRingEnd ℂ) (c (n - k))) *
      Complex.exp (2 * Real.pi * Complex.I * j * k / n)).re

/-- `_lowpass_fft`: zero every rfft coefficient whose frequency exceeds the
cutoff, then inverse-transform. -/
noncomputable def lowpassFft (x : List ℝ) (cutoff rate : ℝ) : List ℝ :=
  if x.length = 0 then x
  else
    (List.range x.length).map fun j =>
      irfftReal
        (fun k =>
          if cutoff < rfftfreqVal x.length rate k then 0 else rfftCoeff x k)
        x.length j

/-- `_bandpass_fft`: keep only the coefficients with
`low ≤ freq ≤ high`, then inverse-transform. -/
noncomputable def bandpassFft (x : List ℝ) (low high rate : ℝ) : List ℝ :=
  if x.length = 0 then x
  else
    (List.range x.length).map fun j =>
      irfftReal
        (fun k =>
          if low ≤ rfftfreqVal x.length rate k ∧ rfftfreqVal x.length rate k ≤ high
          then rfftCoeff x k else 0)
        x.length j

/-- `np.mean` of a list of reals (the callers guard against empty input). -/
noncomputable def meanR (x : List ℝ) : ℝ := x.sum / x.length

/-- `_detrend` (ppg_utils.py): subtract the mean, empty list unchanged. -/
noncomputable def detrendR (x : List ℝ) : List ℝ :=
  if x.length = 0 then x else x.map fun v => v - meanR x

/-- `np.percentile(x, pct)` with the default linear interpolation. -/
noncomputable def npPercentile (x : List ℝ) (pct : ℝ) : ℝ :=
  let s := x.insertionSort (· ≤ ·)
  let n := s.length
  let pos : ℝ := ((n - 1 : ℕ) : ℝ) * (pct / 100)
  let lo : ℕ := ⌊pos⌋.toNat
  let frac : ℝ := pos - (lo : ℝ)
  if lo + 1 < n then s.getD lo 0 + frac * (s.getD (lo + 1) 0 - s.getD lo 0)
  else s.getD lo 0

/-- `_percentile_amp`: half the 5th-95th percentile spread, clamped at 0,
with `0.0` for an empty window. -/
noncomputable def percentileAmp (x : List ℝ) : ℝ :=
  if x.length = 0 then 0
  else max 0 ((npPercentile x 95 - npPercentile x 5) / 2)

/-- Real numbers carry no NaN/infinity: `np.isfinite` always holds in the
model. -/
def realIsFinite (_ : ℝ) : Prop := True

/-- Python `a[-n:]` (note `a[-0:]` is the whole array). -/
def takeLast (l : List ℝ) (n : ℕ) : List ℝ :=
  if n = 0 then l else l.drop (l.length - n)

/-- The structured result dictionary of `spo2_ratio_of_ratios`: failure
reasons are data, never exceptions. -/
inductive Spo2Result where
  | noSignal
  | dcZero
  | acZero
  | piNan (pi_ir pi_red : ℝ)
  | piLow (pi_ir pi_red ratio : ℝ)
  | ok (ratio pi_ir pi_red spo2_linear spo2_quadratic : ℝ)

open Classical in
/-- `spo2_ratio_of_ratios(ir, red, sample_rate_hz)`: requires at least 3 s of
overlapping samples (`NO_SIGNAL`), positive DC means after a 0.5 Hz low-pass
(`DC_ZERO`), positive AC amplitudes after a 0.5-4 Hz band-pass on the
detrended signal (`AC_ZERO`), finite perfusion indices (`PI_NAN`), and
PI above `SPO2_MIN_PI = 0.005` (`PI_LOW`); otherwise reports the
ratio-of-ratios with both empirical SpO2 mappings, each clipped to
`[80, 100]`. -/
noncomputable def spo2_ratio_of_ratios (ir red : List ℝ) (rate : ℝ) :
    Spo2Result :=
  let n := min ir.length red.length
  if (n : ℝ) < rate * 3 then .noSignal
  else
    let ir' := takeLast ir n
    let red' := takeLast red n
    let irDcMean := |meanR (lowpassFft ir' (1/2) rate)|
    let redDcMean := |meanR (lowpassFft red' (1/2) rate)|
    if irDcMean ≤ 0 ∨ redDcMean ≤ 0 then .dcZero
    else
      let irAcAmp := percentileAmp (bandpassFft (detrendR ir') (1/2) 4 rate)
      let redAcAmp := percentileAmp (bandpassFft (detrendR red') (1/2) 4 rate)
      if irAcAmp ≤ 0 ∨ redAcAmp ≤ 0 then .acZero
      else
        let piIr := irAcAmp / irDcMean
        let piRed := redAcAmp / redDcMean
        if ¬(realIsFinite piIr ∧ realIsFinite piRed) then .piNan piIr piRed
        else if piIr ≤ 1/200 ∨ piRed ≤ 1/200 then
          .piLow piIr piRed (piRed / piIr)
        else
          let ratio := piRed / piIr
          .ok ratio piIr piRed
            (max 80 (min 100 (110 - 25 * ratio)))
            (max 80 (min 100
              (-(4506/100) * ratio * ratio + (30354/1000) * ratio + 94845/1000)))

lemma rfftCoeff_zero (x : List ℝ) (hx : ∀ a ∈ x, a = 0) (k : ℕ) :
    rfftCoeff x k = 0 := by
  rw [rfftCoeff]
  apply Finset.sum_eq_zero
  intro j _
  have hz : x.getD j 0 = 0 := by
    by_cases hj : j < x.length
    · rw [List.getD_eq_getElem?_getD, List.getElem?_eq_getElem hj]
      exact hx _ (List.getElem_mem hj)
    · rw [List.getD_eq_getElem?_getD, List.getElem?_eq_none (by omega)]
      rfl
  rw [hz]
  simp

lemma lowpassFft_zero (x : List ℝ) (hx : ∀ a ∈ x, a = 0) (cutoff rate : ℝ) :
    ∀ a ∈ lowpassFft x cutoff rate, a = 0 := by
  intro a ha
  rw [lowpassFft] at ha
  split at ha
  · exact hx a ha
  · obtain ⟨j, _, rfl⟩ := List.mem_map.mp ha
    rw [irfftReal]
    have hc : ∀ k, (if cutoff < rfftfreqVal x.length rate k then (0 : ℂ)
        else rfftCoeff x k) = 0 := by
      intro k
      rw [rfftCoeff_zero x hx k]
      split <;> rfl
    have hsum : (∑ k ∈ Finset.range x.length,
        (if k ≤ x.length / 2 then
            (if cutoff < rfftfreqVal x.length rate k then (0 : ℂ)
              else rfftCoeff x k)
          else (starRingEnd ℂ)
            (if cutoff < rfftfreqVal x.length rate (x.length - k) then (0 : ℂ)
              else rfftCoeff x (x.length - k))) *
          Complex.exp (2 * Real.pi * Complex.I * j * k / x.length)) = 0 := by
      apply Finset.sum_eq_zero
      intro k _
      rw [hc k, hc (x.length - k)]
      simp
    rw [hsum]
    simp

lemma lowpassFft_mean_zero (x : List ℝ) (hx : ∀ a ∈ x, a = 0)
    (cutoff rate : ℝ) : meanR (lowpassFft x cutoff rate) = 0 := by
  rw [meanR, List.sum_eq_zero (lowpassFft_zero x hx cutoff rate)]
  simp

/-- C5: `spo2_ratio_of_ratios` is a total function returning its failure
reasons as data: with fewer than 3 seconds of overlapping samples it returns
`NO_SIGNAL`, and with at least 3 seconds of identically-zero IR and Red
windows it returns `DC_ZERO` — never an exception and never a silent NaN. -/
theorem spo2_structured_failures (ir red : List ℝ) (rate : ℝ)
    (_hrate : 0 < rate) :
    (((min ir.length red.length : ℕ) : ℝ) < rate * 3 →
      spo2_ratio_of_ratios ir red rate = .noSignal) ∧
    (rate * 3 ≤ ((min ir.length red.length : ℕ) : ℝ) →
      (∀ x ∈ ir, x = 0) → (∀ x ∈ red, x = 0) →
      spo2_ratio_of_ratios ir red rate = .dcZero) := by
  constructor
  · intro hshort
    rw [spo2_ratio_of_ratios, if_pos hshort]
  · intro hlong hir hred
    rw [spo2_ratio_of_ratios, if_neg (not_lt.mpr hlong)]
    have hirz : ∀ a ∈ takeLast ir (min ir.length red.length), a = 0 := by
      intro a ha
      rw [takeLast] at ha
      split at ha
      · exact hir a ha
      · exact hir a (List.mem_of_mem_drop ha)
    have hdc : |meanR (lowpassFft (takeLast ir (min ir.length red.length))
        (1/2) rate)| ≤ 0 := by
      rw [lowpassFft_mean_zero _ hirz]
      simp
    rw [if_pos (Or.inl hdc)]

/-- Witness for C5: a 1-sample pair at 1 Hz is below the 3 s minimum and
returns `NO_SIGNAL`; 3 s of all-zero IR and Red at 1 Hz returns `DC_ZERO`. -/
theorem spo2_structured_failures_witness :
    spo2_ratio_of_ratios [0] [0] 1 = .noSignal ∧
    spo2_ratio_of_ratios [0, 0, 0] [0, 0, 0] 1 = .dcZero :=
  ⟨(spo2_structured_failures [0] [0] 1 (by norm_num)).1 (by norm_num),
   (spo2_structured_failures [0, 0, 0] [0, 0, 0] 1 (by norm_num)).2
     (by norm_num) (by simp) (by simp)⟩

/-! ## `compute_band_power_timeseries_combined`
(eeg_processing_utils.py lines 1890-1988)

A per-label band-power series is a list of rows carrying `t_sec` and the
per-band absolute and relative powers (`{band}_abs` / `{band}_rel` columns).
The combination step reads only `t_sec` and the `_abs` columns
(`all_cols = ["t_sec"] + value_cols_abs`, line 1933): it bins by
`round(t_sec / step_sec)` (pandas `.round()`: half to even), takes per-bin
means within each series (`groupby(...).mean()`, keys sorted ascending),
intersects the bin ids across all series, averages the per-bin means across
series, and re-derives the relative powers from the combined absolutes with
`np.where(denom > 0, abs / denom, 0.0)`.  The optional timestamp column
(lines 1943-1951, 1977-1987) is aggregated the same way but never feeds the
power columns; it is omitted here. -/

structure BPRow where
  t_sec : ℚ
  abs : Band → ℚ
  rel : Band → ℚ

/-- `t_bin = (t_sec / step_sec).round().astype(int)`. -/
def binOf (stepSec t : ℚ) : ℤ := roundHalfEven (t / stepSec)

/-- The sorted distinct group keys produced by `groupby`. -/
def sortedKeys (l : List ℤ) : List ℤ := (l.insertionSort (· ≤ ·)).dedup

/-- The bin ids (group index) of one series. -/
def binsOfSeries (df : List BPRow) (stepSec : ℚ) : List ℤ :=
  sortedKeys (df.map fun r => binOf stepSec r.t_sec)

/-- The rows of one series falling in bin `k`. -/
def binRows (df : List BPRow) (stepSec : ℚ) (k : ℤ) : List BPRow :=
  df.filter fun r => decide (binOf stepSec r.t_sec = k)

/-- `groupby("t_bin").mean()` of one `_abs` column: the mean of the band's
absolute power over the rows in the bin. -/
def binMean (df : List BPRow) (stepSec : ℚ) (k : ℤ) (b : Band) : ℚ :=
  ((binRows df stepSec k).map fun r => r.abs b).sum /
    ((binRows df stepSec k).length : ℚ)

/-- `avg = sum(frames) / len(frames)`: the combined absolute power of a band
in a surviving bin — the cross-series mean of the per-series bin means. -/
def combinedAbs (bp_list : List (List BPRow)) (stepSec : ℚ) (k : ℤ) (b : Band) : ℚ :=
  ((bp_list.map fun df => binMean df stepSec k b).sum) / (bp_list.length : ℚ)

/-- The sorted intersection of the bin-id sets of all member series. -/
def commonBins (bp_list : List (List BPRow)) (stepSec : ℚ) : List ℤ :=
  match bp_list with
  | [] => []
  | df :: rest =>
    (binsOfSeries df stepSec).filter fun k =>
      rest.all fun d => decide (k ∈ binsOfSeries d stepSec)

/-- Replace a row's relative powers by zeros, leaving `t_sec` and the
absolute powers untouched (used to state that the combination never reads
the per-series relative powers). -/
def zeroRel (r : BPRow) : BPRow := ⟨r.t_sec, r.abs, fun _ => 0⟩

/-- The combination step of `compute_band_power_timeseries_combined`, taking
the already-computed per-label series and their sampling rates: fail fast on
mismatched rates (tolerance `1e-6`), pass single-label groups through
unchanged, else bin/intersect/average the absolute powers and re-derive the
relative powers from the combined absolutes. -/
def compute_band_power_timeseries_combined (bp_list : List (List BPRow))
    (fs_values : List ℚ) : Except String (List BPRow) :=
  match bp_list with
  | [] => .error "No labels provided for combined band power"
  | df0 :: rest =>
    let fs0 := fs_values.headD 0
    if ∃ fs ∈ fs_values, 1/1000000 < |fs - fs0| then
      .error "Mismatched sampling rates in group"
    else if rest.isEmpty then .ok df0
    else
      let stepSec := ((NPERSEG / 2 : ℕ) : ℚ) / fs0
      if commonBins (df0 :: rest) stepSec = [] then
        .error "No overlapping time bins across labels to combine"
      else
        .ok ((commonBins (df0 :: rest) stepSec).map fun (k : ℤ) =>
          { t_sec := (k : ℚ) * stepSec
            abs := fun b => combinedAbs (df0 :: rest) stepSec k b
            rel := fun b =>
              if 0 < (bandList.map fun b' =>
                  combinedAbs (df0 :: rest) stepSec k b').sum then
                combinedAbs (df0 :: rest) stepSec k b /
                  (bandList.map fun b' =>
                    combinedAbs (df0 :: rest) stepSec k b').sum
              else 0 })

lemma binRows_map_zeroRel (df : List BPRow) (s : ℚ) (k : ℤ) :
    binRows (df.map zeroRel) s k = (binRows df s k).map zeroRel := by
  rw [binRows, binRows, List.filter_map]
  rfl

lemma binMean_map_zeroRel (df : List BPRow) (s : ℚ) (k : ℤ) (b : Band) :
    binMean (df.map zeroRel) s k b = binMean df s k b := by
  rw [binMean, binMean, binRows_map_zeroRel, List.map_map, List.length_map]
  rfl

lemma binsOfSeries_map_zeroRel (df : List BPRow) (s : ℚ) :
    binsOfSeries (df.map zeroRel) s = binsOfSeries df s := by
  rw [binsOfSeries, binsOfSeries, List.map_map]
  rfl

lemma commonBins_map_zeroRel (bp : List (List BPRow)) (s : ℚ) :
    commonBins (bp.map (List.map zeroRel)) s = commonBins bp s := by
  cases bp with
  | nil => rfl
  | cons df rest =>
    rw [List.map_cons, commonBins, commonBins, binsOfSeries_map_zeroRel]
    congr 1
    funext k
    rw [List.all_map]
    congr 1
    funext d
    simp only [Function.comp_apply, binsOfSeries_map_zeroRel]

lemma combinedAbs_map_zeroRel (bp : List (List BPRow)) (s : ℚ) (k : ℤ) (b : Band) :
    combinedAbs (bp.map (List.map zeroRel)) s k b = combinedAbs bp s k b := by
  rw [combinedAbs, combinedAbs, List.map_map, List.length_map]
  congr 2
  apply List.map_congr_left
  intro df _
  exact binMean_map_zeroRel df s k b

/-- C1: for every multi-label group accepted by
`compute_band_power_timeseries_combined` and every surviving intersected
bin, each band's output relative power equals the bin's combined
(cross-series averaged) absolute power divided by the sum of the combined
absolute powers of all five bands (0 when that sum is 0); the output's
absolute powers are exactly the cross-series averages of the per-series bin
means; and the per-series relative powers are never read — zeroing every
input `rel` column leaves the combined output unchanged. -/
theorem compute_band_power_combined_rederives_relative
    (bp_list : List (List BPRow)) (fs_values : List ℚ) (out : List BPRow)
    (hmulti : 2 ≤ bp_list.length)
    (hok : compute_band_power_timeseries_combined bp_list fs_values = .ok out) :
    (∀ r ∈ out, ∀ b, r.rel b =
      if 0 < (bandList.map r.abs).sum then r.abs b / (bandList.map r.abs).sum
      else 0) ∧
    (∀ r ∈ out, ∃ k ∈ commonBins bp_list
        (((NPERSEG / 2 : ℕ) : ℚ) / fs_values.headD 0),
      r.t_sec = (k : ℚ) * (((NPERSEG / 2 : ℕ) : ℚ) / fs_values.headD 0) ∧
      ∀ b, r.abs b = combinedAbs bp_list
        (((NPERSEG / 2 : ℕ) : ℚ) / fs_values.headD 0) k b) ∧
    compute_band_power_timeseries_combined (bp_list.map (List.map zeroRel))
      fs_values = .ok out := by
  cases bp_list with
  | nil => simp at hmulti
  | cons df0 rest =>
    have hrest : rest ≠ [] := by
      intro h
      subst h
      simp at hmulti
    simp only [compute_band_power_timeseries_combined] at hok
    by_cases hfs : ∃ fs ∈ fs_values, 1/1000000 < |fs - fs_values.headD 0|
    · rw [if_pos hfs] at hok
      exact absurd hok (by simp)
    · rw [if_neg hfs] at hok
      rw [if_neg (by simp [hrest])] at hok
      by_cases hcom : commonBins (df0 :: rest)
          (((NPERSEG / 2 : ℕ) : ℚ) / fs_values.headD 0) = []
      · rw [if_pos hcom] at hok
        exact absurd hok (by simp)
      · rw [if_neg hcom] at hok
        have hout := Except.ok.inj hok
        subst hout
        refine ⟨?_, ?_, ?_⟩
        · intro r hr b
          obtain ⟨k, _, rfl⟩ := List.mem_map.mp hr
          rfl
        · intro r hr
          obtain ⟨k, hk, rfl⟩ := List.mem_map.mp hr
          exact ⟨k, hk, rfl, fun b => rfl⟩
        · simp only [List.map_cons, compute_band_power_timeseries_combined]
          rw [if_neg hfs]
          rw [if_neg (by simp [hrest])]
          rw [show (List.map zeroRel df0 :: rest.map (List.map zeroRel)) =
            ((df0 :: rest).map (List.map zeroRel)) from rfl]
          rw [commonBins_map_zeroRel]
          rw [if_neg hcom]
          refine congrArg Except.ok ?_
          apply List.map_congr_left
          intro k _
          simp only [combinedAbs_map_zeroRel]

/-- Per-label series A for the C1 witness: one window with absolute delta
power 10, all other bands 0, and (deliberately wrong) relative powers 0. -/
def bpExA : List BPRow :=
  [⟨0, fun b => if b = .delta then 10 else 0, fun _ => 0⟩]

/-- Per-label series B for the C1 witness: absolute delta power 30. -/
def bpExB : List BPRow :=
  [⟨0, fun b => if b = .delta then 30 else 0, fun _ => 0⟩]

/-- `step_sec` for the C1 witness group (512 samples at 256 Hz). -/
def exStep : ℚ := ((NPERSEG / 2 : ℕ) : ℚ) / (([256, 256] : List ℚ).headD 0)

lemma exStep_commonBins : commonBins [bpExA, bpExB] exStep = [0] := by
  have hbin : binOf exStep 0 = 0 := by
    norm_num [binOf, roundHalfEven]
  norm_num [commonBins, binsOfSeries, sortedKeys, bpExA, bpExB, hbin,
    List.insertionSort, List.orderedInsert, List.dedup, List.filter]

lemma exStep_combinedAbs (b : Band) :
    combinedAbs [bpExA, bpExB] exStep 0 b = if b = .delta then 20 else 0 := by
  have hbin : binOf exStep 0 = 0 := by
    norm_num [binOf, roundHalfEven]
  cases b <;>
      norm_num [combinedAbs, binMean, binRows, bpExA, bpExB, hbin, List.filter] <;>
    simp +decide

/-- Witness for C1: two channels observing the same bin with absolute delta
powers 10 and 30 (other bands 0) combine to absolute delta 20 and relative
delta exactly 1 — although both input series carry relative powers 0, which
would average to 0; zeroing the input relative columns (a no-op here)
reproduces the same output via the main theorem. -/
theorem compute_band_power_combined_rederives_relative_witness :
    compute_band_power_timeseries_combined [bpExA, bpExB] [256, 256] =
      .ok [⟨0, fun b => if b = .delta then 20 else 0,
            fun b => if b = .delta then 1 else 0⟩] ∧
    compute_band_power_timeseries_combined
        ([bpExA, bpExB].map (List.map zeroRel)) [256, 256] =
      .ok [⟨0, fun b => if b = .delta then 20 else 0,
            fun b => if b = .delta then 1 else 0⟩] := by
  have hden : (bandList.map fun b' =>
      combinedAbs [bpExA, bpExB] exStep 0 b').sum = 20 := by
    simp only [bandList, List.map_cons, List.map_nil, List.sum_cons,
      List.sum_nil, exStep_combinedAbs]
    simp +decide
  have hok : compute_band_power_timeseries_combined [bpExA, bpExB] [256, 256] =
      .ok [⟨0, fun b => if b = .delta then 20 else 0,
            fun b => if b = .delta then 1 else 0⟩] := by
    simp only [compute_band_power_timeseries_combined]
    rw [if_neg (by norm_num)]
    rw [if_neg (by simp)]
    rw [show ((NPERSEG / 2 : ℕ) : ℚ) / (([256, 256] : List ℚ).headD 0) =
      exStep from rfl]
    rw [if_neg (by rw [exStep_commonBins]; simp)]
    rw [exStep_commonBins]
    refine congrArg Except.ok ?_
    simp only [List.map_cons, List.map_nil]
    refine congrArg (· :: []) ?_
    have ht : ((0 : ℤ) : ℚ) * exStep = 0 := by norm_num
    rw [BPRow.mk.injEq]
    refine ⟨ht, funext fun b => exStep_combinedAbs b, funext fun b => ?_⟩
    rw [hden, exStep_combinedAbs, if_pos (by norm_num)]
    cases b <;> simp +decide
  exact ⟨hok,
    (compute_band_power_combined_rederives_relative [bpExA, bpExB] [256, 256]
      _ (by norm_num) hok).2.2⟩

end Meditrain
